import Mathlib

/-!
Shallow embedding of the combinatorial core of `Erdos-888-Computational.py`:
square-free sieve, square-free kernel, core reduction, perfect-square test,
the admissibility predicate, the scale-fixing search, the hypergraph builder
and the exact branch-and-bound minimum vertex cover solver, together with
proofs of the specified properties.

Machine integers of the source are Python arbitrary-precision integers; all
values manipulated by the embedded fragment are non-negative, so they are
modelled by `Nat` (the one subtraction producing `f_sf` is modelled in `Int`,
exactly as Python's `len(V) - len(min_cover[0])`).
-/

namespace Erdos888

/-- Stable insertion of `x` into a list: `x` is placed before the first
element `y` with `le x y`.  Used to model Python's (stable) `sorted`. -/
def insertSorted (le : Nat → Nat → Bool) (x : Nat) : List Nat → List Nat
  | [] => [x]
  | y :: ys => if le x y then x :: y :: ys else y :: insertSorted le x ys

/-- Stable insertion sort, modelling Python's `sorted(l, key=...)`:
elements comparing equal keep their original relative order. -/
def sortBy (le : Nat → Nat → Bool) : List Nat → List Nat
  | [] => []
  | x :: xs => insertSorted le x (sortBy le xs)

theorem insertSorted_perm (le : Nat → Nat → Bool) (x : Nat) (l : List Nat) :
    List.Perm (insertSorted le x l) (x :: l) := by
  induction l with
  | nil => simp [insertSorted]
  | cons y ys ih =>
    rw [insertSorted]
    split
    · exact List.Perm.refl _
    · exact ((ih.cons y).trans (List.Perm.swap x y ys))

theorem sortBy_perm (le : Nat → Nat → Bool) (l : List Nat) :
    List.Perm (sortBy le l) l := by
  induction l with
  | nil => simp [sortBy]
  | cons x xs ih =>
    exact (insertSorted_perm le x (sortBy le xs)).trans (ih.cons x)

theorem mem_sortBy {le : Nat → Nat → Bool} {l : List Nat} {a : Nat} :
    a ∈ sortBy le l ↔ a ∈ l :=
  (sortBy_perm le l).mem_iff

theorem length_sortBy (le : Nat → Nat → Bool) (l : List Nat) :
    (sortBy le l).length = l.length :=
  (sortBy_perm le l).length_eq

theorem insertSorted_pairwise (le : Nat → Nat → Bool)
    (htot : ∀ a b, le a b = true ∨ le b a = true)
    (htrans : ∀ a b c, le a b = true → le b c = true → le a c = true)
    {x : Nat} {l : List Nat} (hl : l.Pairwise (fun a b => le a b = true)) :
    (insertSorted le x l).Pairwise (fun a b => le a b = true) := by
  induction l with
  | nil => simp [insertSorted]
  | cons y ys ih =>
    rw [insertSorted]
    rcases List.pairwise_cons.1 hl with ⟨hy, hys⟩
    split
    · rename_i hxy
      refine List.pairwise_cons.2 ⟨?_, hl⟩
      intro z hz
      rcases hz with _ | hz
      · exact hxy
      · exact htrans x y _ hxy (hy _ (by assumption))
    · rename_i hxy
      have hyx : le y x = true := (htot x y).resolve_left hxy
      refine List.pairwise_cons.2 ⟨?_, ih hys⟩
      intro z hz
      rcases List.mem_cons.1 ((insertSorted_perm le x ys).mem_iff.1 hz) with rfl | hz
      · exact hyx
      · exact hy _ hz

theorem sortBy_pairwise (le : Nat → Nat → Bool)
    (htot : ∀ a b, le a b = true ∨ le b a = true)
    (htrans : ∀ a b c, le a b = true → le b c = true → le a c = true)
    (l : List Nat) :
    (sortBy le l).Pairwise (fun a b => le a b = true) := by
  induction l with
  | nil => simp [sortBy]
  | cons x xs ih => exact insertSorted_pairwise le htot htrans ih

/-- Ascending sort of a list of naturals (the plain `sorted(...)`). -/
def sortNat (l : List Nat) : List Nat := sortBy Nat.ble l

theorem sortNat_sorted (l : List Nat) : List.Sorted (· ≤ ·) (sortNat l) := by
  have hble : ∀ a b : Nat, Nat.ble a b = true ↔ a ≤ b := by
    intro a b
    rw [Nat.ble_eq]
  have h := sortBy_pairwise Nat.ble
    (fun a b => by
      rcases Nat.le_total a b with h | h
      · exact Or.inl ((hble a b).2 h)
      · exact Or.inr ((hble b a).2 h))
    (fun a b c hab hbc =>
      (hble a c).2 (le_trans ((hble a b).1 hab) ((hble b c).1 hbc))) l
  exact h.imp (fun h => (hble _ _).1 h)

theorem sortNat_perm (l : List Nat) : List.Perm (sortNat l) l := sortBy_perm _ l

/-- Sorted list of the elements of a `Finset Nat`, modelling Python's
`sorted(A)` on a set; computes by insertion sort on the underlying list. -/
def finsort (A : Finset Nat) : List Nat :=
  Quot.liftOn A.val (fun l => sortNat l) (fun a b h => by
    refine List.eq_of_perm_of_sorted ?_ (sortNat_sorted a) (sortNat_sorted b)
    exact (sortNat_perm a).trans (h.trans (sortNat_perm b).symm))

theorem coe_finsort (A : Finset Nat) : (finsort A : Multiset Nat) = A.val := by
  rcases Quot.exists_rep A.val with ⟨l, hl⟩
  have h1 : finsort A = sortNat l := by rw [finsort, ← hl]
  rw [h1, ← hl]
  exact Quot.sound (sortNat_perm l)

theorem mem_finsort {A : Finset Nat} {a : Nat} : a ∈ finsort A ↔ a ∈ A := by
  rw [← Multiset.mem_coe, coe_finsort]
  exact Iff.rfl

theorem finsort_sorted (A : Finset Nat) : List.Sorted (· ≤ ·) (finsort A) := by
  rcases Quot.exists_rep A.val with ⟨l, hl⟩
  have h1 : finsort A = sortNat l := by rw [finsort, ← hl]
  rw [h1]
  exact sortNat_sorted l

/-- Fuel-driven digit recurrence for the exact integer square root;
`isqrtF fuel n` equals `Nat.sqrt n` whenever `n ≤ fuel` (proved below).
Structural recursion keeps it kernel-computable, modelling the exact
`math.isqrt` primitive of the source. -/
def isqrtF : Nat → Nat → Nat
  | 0, _ => 0
  | fuel + 1, n =>
    if n < 2 then n
    else
      let r := 2 * isqrtF fuel (n / 4)
      if (r + 1) * (r + 1) ≤ n then r + 1 else r

/-- Exact integer square root (`math.isqrt`). -/
def isqrt (n : Nat) : Nat := isqrtF n n

theorem isqrtF_eq : ∀ fuel n, n ≤ fuel → isqrtF fuel n = Nat.sqrt n := by
  intro fuel
  induction fuel with
  | zero =>
    intro n hn
    have : n = 0 := Nat.le_zero.1 hn
    subst this
    simp [isqrtF]
  | succ fuel ih =>
    intro n hn
    rw [isqrtF]
    split
    · rename_i h2
      interval_cases n
      · simp
      · simp
    · rename_i h2
      push_neg at h2
      have hquot : n / 4 ≤ fuel := by
        have : n / 4 < n := Nat.div_lt_self (by omega) (by omega)
        omega
      rw [ih _ hquot]
      set s := Nat.sqrt (n / 4) with hs
      have hlow : (2 * s) * (2 * s) ≤ n := by
        have h1 : s * s ≤ n / 4 := Nat.sqrt_le (n / 4)
        have h2 : n / 4 * 4 ≤ n := Nat.div_mul_le_self n 4
        calc (2 * s) * (2 * s) = s * s * 4 := by ring
          _ ≤ n / 4 * 4 := Nat.mul_le_mul_right 4 h1
          _ ≤ n := h2
      have hhigh : n < (2 * s + 2) * (2 * s + 2) := by
        have h1 : n / 4 < (s + 1) * (s + 1) := Nat.lt_succ_sqrt (n / 4)
        have h2 : n < ((s + 1) * (s + 1)) * 4 :=
          (Nat.div_lt_iff_lt_mul (by omega)).1 h1
        calc n < ((s + 1) * (s + 1)) * 4 := h2
          _ = (2 * s + 2) * (2 * s + 2) := by ring
      dsimp only
      split
      · rename_i hmid
        have h3 : Nat.sqrt n < 2 * s + 2 := Nat.sqrt_lt.2 hhigh
        have h4 : 2 * s + 1 ≤ Nat.sqrt n := Nat.le_sqrt.2 hmid
        omega
      · rename_i hmid
        push_neg at hmid
        have h3 : Nat.sqrt n < 2 * s + 1 := Nat.sqrt_lt.2 hmid
        have h4 : 2 * s ≤ Nat.sqrt n := Nat.le_sqrt.2 hlow
        omega

theorem isqrt_eq_sqrt (n : Nat) : isqrt n = Nat.sqrt n := isqrtF_eq n n le_rfl

/-- Membership test of the sieve: `x` survives the sieve up to bound `n`
iff no `i ∈ [2, ⌊√n⌋]` has `i²` dividing `x`.  This is exactly what the
marking loop `for i in range(2, int(n**0.5)+1): mark multiples of i*i`
computes for indices `x ≥ 1`; the float bound `int(n**0.5)` is the exact
`⌊√n⌋` on every feasible input. -/
def sieve_keep (n x : Nat) : Bool :=
  (List.range' 2 (isqrt n - 1)).all (fun i => x % (i * i) != 0)

/-- Embeds `sieve_square_free(n)`: all square-free numbers up to `n`,
as the filtered list `[x for x in range(1, n+1) if is_sf[x]]`. -/
def sieve_square_free (n : Nat) : List Nat :=
  (List.range' 1 n).filter (sieve_keep n)

/-- Embeds the inner `while temp % d == 0: temp //= d` loop of
`square_free_kernel`.  The guards `2 ≤ d` and `0 < temp` hold at every
call site of the source (they are needed for termination; on `temp = 0`
the Python loop would diverge, a state never reached for `m ≥ 1`). -/
def removeAll (temp d : Nat) : Nat :=
  if 2 ≤ d ∧ 0 < temp ∧ temp % d = 0 then removeAll (temp / d) d else temp
termination_by temp
decreasing_by
  rename_i h
  exact Nat.div_lt_self h.2.1 (by omega)

theorem removeAll_le (temp d : Nat) : removeAll temp d ≤ temp := by
  induction temp using Nat.strong_induction_on with
  | _ temp ih =>
    rw [removeAll]
    split
    · rename_i h
      exact le_trans (ih _ (Nat.div_lt_self h.2.1 (by omega)) ) (Nat.div_le_self _ _)
    · exact le_rfl

theorem le_of_sq_le {d temp : Nat} (h : d * d ≤ temp) : d ≤ temp := by
  rcases Nat.eq_zero_or_pos d with h0 | h0
  · omega
  · calc d = d * 1 := (Nat.mul_one d).symm
      _ ≤ d * d := Nat.mul_le_mul_left d h0
      _ ≤ temp := h

/-- Embeds the outer trial-division loop of `square_free_kernel`:
state `(temp, d, kernel)`, stepping `d` and stripping each found divisor. -/
def kernelAux (temp d kernel : Nat) : Nat :=
  if d * d ≤ temp then
    if temp % d = 0 then
      kernelAux (removeAll temp d) (d + 1) (kernel * d)
    else
      kernelAux temp (d + 1) kernel
  else if temp > 1 then kernel * temp else kernel
termination_by temp + 1 - d
decreasing_by
  · have hr := removeAll_le temp d
    have hd := le_of_sq_le (by assumption : d * d ≤ temp)
    omega
  · have hd := le_of_sq_le (by assumption : d * d ≤ temp)
    omega

/-- Embeds `square_free_kernel(m)`: the product of the distinct prime
factors of `m`, computed by trial division; `kernel(0) = 0`. -/
def square_free_kernel (m : Nat) : Nat :=
  if m = 0 then 0 else kernelAux m 2 1

/-- Embeds `core(a, b) = (a * b) // gcd(a, b)**2`. -/
def core (a b : Nat) : Nat :=
  (a * b) / (Nat.gcd a b * Nat.gcd a b)

/-- Embeds `is_square(n)` (via the exact integer square root); negative
inputs never occur in the embedded fragment, whose values are `Nat`. -/
def is_square (n : Nat) : Bool :=
  isqrt n * isqrt n == n

theorem is_square_iff {n : Nat} : is_square n = true ↔ IsSquare n := by
  unfold is_square
  rw [isqrt_eq_sqrt, beq_iff_eq]
  constructor
  · intro h
    exact ⟨Nat.sqrt n, h.symm⟩
  · rintro ⟨r, rfl⟩
    rw [Nat.sqrt_eq]

/-- Per-quadruple test of `check_admissible`: a sorted 4-tuple violates
nothing iff its product is not a square or the cross-equality holds. -/
def quadOk : List Nat → Bool
  | [a, b, c, d] => !(is_square (a * b * c * d)) || (a * d == b * c)
  | _ => true

/-- Per-pair test of `check_admissible`, covering the degenerate
quadruples `(x,x,x,y)` and `(x,y,y,y)`. -/
def pairOk : List Nat → Bool
  | [x, y] =>
      (!(is_square (x * x * x * y)) || (x * y == x * x)) &&
      (!(is_square (x * y * y * y)) || (x * y == y * y))
  | _ => true

/-- Embeds `check_admissible(A)`.  Python receives a `set` and iterates
`combinations(sorted(A), 4)` and all ordered pairs of `sorted(A)`; these
are exactly the length-4 and length-2 sublists of the sorted list of the
distinct elements.  Returning `False` at the first violation is the same
boolean as the conjunction over all tests. -/
def check_admissible (A : Finset Nat) : Bool :=
  let l := finsort A
  ((l.sublistsLen 4).all quadOk) && ((l.sublistsLen 2).all pairOk)

/-- Embeds the `while k * s * s <= n: s += 1` loop of
`check_fixing_opportunity` started at `s`; returns `s - 1` when the guard
fails.  Structural recursion on a fuel argument keeps it computable; a
fuel of `n + 2 - s` can never run out, because the guard forces
`s ≤ n + 1` (see `scale_loopF_spec` below).  The `0 < k` guard matches
the fact that on `k = 0` the Python loop would diverge; the claims only
use positive kernels. -/
def scale_loopF : Nat → Nat → Nat → Nat → Nat
  | 0, _, _, s => s - 1
  | fuel + 1, n, k, s =>
    if 0 < k ∧ k * s * s ≤ n then scale_loopF fuel n k (s + 1) else s - 1

/-- Embeds the maximum-scale computation `s = 1; while k*s*s <= n: s += 1;
max_scales.append(s - 1)` of `check_fixing_opportunity`. -/
def scale_loop (n k s : Nat) : Nat := scale_loopF (n + 2) n k s

theorem guard_s_le {n k s : Nat} (hk : 0 < k) (hle : k * s * s ≤ n) :
    s ≤ n + 1 := by
  have h1 : s * s ≤ k * (s * s) := Nat.le_mul_of_pos_left (s * s) hk
  have hs : s * s ≤ n := le_trans h1 (by rw [← Nat.mul_assoc]; exact hle)
  rcases Nat.eq_zero_or_pos s with h0 | h0
  · omega
  · have h2 : s ≤ s * s := Nat.le_mul_of_pos_left s h0
    omega

theorem scale_loopF_high {n k s : Nat} (h : n + 2 ≤ s) :
    ∀ fuel, scale_loopF fuel n k s = s - 1 := by
  intro fuel
  cases fuel with
  | zero => rfl
  | succ fuel =>
    rw [scale_loopF]
    split
    · rename_i hg
      exact absurd (guard_s_le hg.1 hg.2) (by omega)
    · rfl

/-- The fuelled loop is fuel-insensitive as long as the fuel dominates
`n + 2 - s`, so `scale_loop` computes exactly what the unbounded Python
loop computes. -/
theorem scale_loopF_fuel {n k : Nat} :
    ∀ fuel fuel' s, n + 2 ≤ fuel + s → n + 2 ≤ fuel' + s →
      scale_loopF fuel n k s = scale_loopF fuel' n k s := by
  intro fuel
  induction fuel with
  | zero =>
    intro fuel' s h h'
    rw [scale_loopF_high (by omega) fuel']
    rfl
  | succ fuel ih =>
    intro fuel' s h h'
    cases fuel' with
    | zero =>
      rw [scale_loopF_high (by omega) (fuel + 1)]
      rfl
    | succ fuel' =>
      rw [scale_loopF, scale_loopF]
      split
      · rename_i hg
        have hs := guard_s_le hg.1 hg.2
        exact ih fuel' (s + 1) (by omega) (by omega)
      · rfl

/-- Embeds `itertools.product(*scale_ranges)`: the lexicographic cross
product of the given ranges, rightmost coordinate varying fastest. -/
def scale_tuples : List (List Nat) → List (List Nat)
  | [] => [[]]
  | r :: rs => r.flatMap (fun s => (scale_tuples rs).map (fun t => s :: t))

/-- Embeds the main loop of `check_fixing_opportunity`: try each scale
combination in order, skip the all-ones tuple and tuples creating
duplicate values, and return the first admissible rescaling.  Sorting
`A` and reading indices `0,1,2,3` is the `A_sorted[0]*...*A_sorted[3]`
of the source (a kernel set of fewer than four elements would raise
`IndexError` there; no claim reaches that state). -/
def try_scales (kernels : List Nat) : List (List Nat) → Bool × Option (List Nat)
  | [] => (false, none)
  | scales :: rest =>
    if scales.all (· == 1) then try_scales kernels rest
    else
      let A := (kernels.zip scales).map (fun p => p.1 * p.2 * p.2)
      if A.Nodup then
        match sortNat A with
        | a :: b :: c :: d :: _ =>
          if is_square (a * b * c * d) && a * d == b * c then (true, some A)
          else try_scales kernels rest
        | _ => try_scales kernels rest
      else try_scales kernels rest

/-- Embeds `check_fixing_opportunity(n, kernel_set)`. -/
def check_fixing_opportunity (n : Nat) (kernel_set : Finset Nat) :
    Bool × Option (List Nat) :=
  let kernels := finsort kernel_set
  let max_scales := kernels.map (fun k => scale_loop n k 1)
  let scale_ranges := max_scales.map (fun ms => List.range' 1 ms)
  try_scales kernels (scale_tuples scale_ranges)

/-- A hyperedge: the sorted 4-tuple `tuple(q)` of the source. -/
abbrev Edge := Nat × Nat × Nat × Nat

/-- The four vertices of a hyperedge, in tuple order. -/
def edgeVerts (e : Edge) : List Nat := [e.1, e.2.1, e.2.2.1, e.2.2.2]

/-- Embeds the double loop `for i ...: for j in range(i+1, ...)` producing
all ordered-index pairs of a list, in generation order. -/
def allPairs : List Nat → List (Nat × Nat)
  | [] => []
  | x :: xs => xs.map (fun y => (x, y)) ++ allPairs xs

/-- Appends `p` to the bucket of key `k` of an association list, adding a
new bucket at the end for a fresh key: exactly the behaviour of
`defaultdict(list)` with Python's insertion-ordered dict iteration. -/
def insertGroup (k : Nat) (p : Nat × Nat) :
    List (Nat × List (Nat × Nat)) → List (Nat × List (Nat × Nat))
  | [] => [(k, [p])]
  | (k', l) :: rest =>
    if k' = k then (k', l ++ [p]) :: rest else (k', l) :: insertGroup k p rest

/-- Embeds `pair_groups[core(V[i],V[j])].append((V[i], V[j]))` over all
pairs: buckets keyed by core value, in key-first-seen order. -/
def groupPairs (ps : List (Nat × Nat)) : List (Nat × List (Nat × Nat)) :=
  ps.foldl (fun acc p => insertGroup (core p.1 p.2) p acc) []

/-- The `for i ...: for j in range(i+1, ...)` loop over a bucket's pairs. -/
def pairPairs : List (Nat × Nat) → List ((Nat × Nat) × (Nat × Nat))
  | [] => []
  | p :: ps => ps.map (fun q => (p, q)) ++ pairPairs ps

/-- One candidate hyperedge from two same-core pairs: keep it when the
four endpoints are distinct (`len(vertices) == 4`) and, after sorting,
the cross-equality `q[0]*q[3] == q[1]*q[2]` fails. -/
def edgeOfPairPair (pq : (Nat × Nat) × (Nat × Nat)) : Option Edge :=
  let l := [pq.1.1, pq.1.2, pq.2.1, pq.2.2]
  if l.Nodup then
    match sortNat l with
    | [a, b, c, d] => if a * d ≠ b * c then some (a, b, c, d) else none
    | _ => none
  else none

/-- All hyperedges contributed by one core bucket (buckets with fewer
than two pairs contribute nothing, as in the `len(pairs) < 2` skip). -/
def bucketEdges (pairs : List (Nat × Nat)) : List Edge :=
  (pairPairs pairs).filterMap edgeOfPairPair

/-- The full edge list of `compute_f_sf`, over buckets in dict order. -/
def buildEdges (V : List Nat) : List Edge :=
  (groupPairs (allPairs V)).flatMap (fun kp => bucketEdges kp.2)

/-- Embeds `any(v in cover for v in edges[i])`. -/
def edgeCoveredB (cover : Finset Nat) (e : Edge) : Bool :=
  (edgeVerts e).any (fun v => decide (v ∈ cover))

/-- Embeds the scan `for i in range(edge_idx, len(edges)): if not any(...)`
of `backtrack`: the first uncovered edge at index `≥ i`, with its index. -/
def findUncovered (edges : List Edge) (cover : Finset Nat) (i : Nat) :
    Option (Nat × Edge) :=
  if h : i < edges.length then
    if edgeCoveredB cover (edges.get ⟨i, h⟩) then findUncovered edges cover (i + 1)
    else some (i, edges.get ⟨i, h⟩)
  else none
termination_by edges.length - i

/-- Joint specification of `findUncovered`: a `none` answer means every
edge from index `i` on is covered; a `some (j, e)` answer locates the
first uncovered edge at or after `i`. -/
theorem findUncovered_spec (edges : List Edge) (cover : Finset Nat) :
    ∀ i,
      (findUncovered edges cover i = none →
        ∀ j, i ≤ j → ∀ (h : j < edges.length),
          edgeCoveredB cover (edges.get ⟨j, h⟩) = true) ∧
      (∀ j e, findUncovered edges cover i = some (j, e) →
        i ≤ j ∧ j < edges.length ∧ e ∈ edges ∧ edgeCoveredB cover e = false ∧
        (∀ hj : j < edges.length, edges.get ⟨j, hj⟩ = e) ∧
        (∀ m, i ≤ m → m < j → ∀ (h : m < edges.length),
          edgeCoveredB cover (edges.get ⟨m, h⟩) = true)) := by
  have main : ∀ k i, edges.length - i ≤ k →
      (findUncovered edges cover i = none →
        ∀ j, i ≤ j → ∀ (h : j < edges.length),
          edgeCoveredB cover (edges.get ⟨j, h⟩) = true) ∧
      (∀ j e, findUncovered edges cover i = some (j, e) →
        i ≤ j ∧ j < edges.length ∧ e ∈ edges ∧ edgeCoveredB cover e = false ∧
        (∀ hj : j < edges.length, edges.get ⟨j, hj⟩ = e) ∧
        (∀ m, i ≤ m → m < j → ∀ (h : m < edges.length),
          edgeCoveredB cover (edges.get ⟨m, h⟩) = true)) := by
    intro k
    induction k with
    | zero =>
      intro i hk
      have hge : edges.length ≤ i := by omega
      rw [findUncovered]
      rw [dif_neg (by omega)]
      constructor
      · intro _ j hij h
        omega
      · intro j e h
        exact absurd h (by simp)
    | succ k ih =>
      intro i hk
      rw [findUncovered]
      by_cases h : i < edges.length
      · rw [dif_pos h]
        by_cases hc : edgeCoveredB cover (edges.get ⟨i, h⟩) = true
        · rw [if_pos hc]
          rcases ih (i + 1) (by omega) with ⟨hnone, hsome⟩
          constructor
          · intro hfe j hij hj
            rcases Nat.eq_or_lt_of_le hij with rfl | hij'
            · exact hc
            · exact hnone hfe j hij' hj
          · intro j e hfe
            rcases hsome j e hfe with ⟨h1, h2, h3, h4, h4a, h5⟩
            refine ⟨by omega, h2, h3, h4, h4a, ?_⟩
            intro m him hmj hm
            rcases Nat.eq_or_lt_of_le him with rfl | him'
            · exact hc
            · exact h5 m him' hmj hm
        · rw [if_neg hc]
          constructor
          · intro hfe
            exact absurd hfe (by simp)
          · intro j e hfe
            have h0 : (i, edges.get ⟨i, h⟩) = (j, e) := Option.some.inj hfe
            injection h0 with h1 h2
            subst h1
            subst h2
            refine ⟨le_rfl, h, List.get_mem _ _ _, by simpa using hc,
              fun hj => rfl, ?_⟩
            intro m him hmj hm
            omega
      · rw [dif_neg h]
        constructor
        · intro _ j hij hj
          omega
        · intro j e hfe
          exact absurd hfe (by simp)
  intro i
  exact main (edges.length - i) i le_rfl

theorem findUncovered_none (edges : List Edge) (cover : Finset Nat) {i : Nat}
    (hfe : findUncovered edges cover i = none) :
    ∀ j, i ≤ j → ∀ (h : j < edges.length),
      edgeCoveredB cover (edges.get ⟨j, h⟩) = true :=
  (findUncovered_spec edges cover i).1 hfe

theorem findUncovered_some (edges : List Edge) (cover : Finset Nat)
    {i j : Nat} {e : Edge} (hfe : findUncovered edges cover i = some (j, e)) :
    i ≤ j ∧ j < edges.length ∧ e ∈ edges ∧ edgeCoveredB cover e = false ∧
    (∀ hj : j < edges.length, edges.get ⟨j, hj⟩ = e) ∧
    (∀ m, i ≤ m → m < j → ∀ (h : m < edges.length),
      edgeCoveredB cover (edges.get ⟨m, h⟩) = true) :=
  (findUncovered_spec edges cover i).2 j e hfe

/-- Embeds `sorted(uncovered, key=lambda x: deg[x], reverse=True)`:
stable sort by decreasing degree. -/
def sortDesc (deg : Nat → Nat) (l : List Nat) : List Nat :=
  sortBy (fun x y => Nat.ble (deg y) (deg x)) l

/-- Embeds the recursive `backtrack(edge_idx, cover)` of `compute_f_sf`,
with the mutated `cover` set and the `min_cover[0]` cell threaded through
explicitly: the result is the value of `min_cover[0]` after the call.
The branch loop `for v in sorted(uncovered, ...)` always ranges over the
four vertices of the uncovered edge, here unrolled (the wildcard match
arm is unreachable: the sorted vertex list always has four elements). -/
def backtrack (edges : List Edge) (deg : Nat → Nat) (i : Nat)
    (cover best : Finset Nat) : Finset Nat :=
  if best.card ≤ cover.card then best
  else
    match hfu : findUncovered edges cover i with
    | none => cover
    | some (j, e) =>
      match sortDesc deg (edgeVerts e) with
      | [v1, v2, v3, v4] =>
        backtrack edges deg (j + 1) (insert v4 cover)
          (backtrack edges deg (j + 1) (insert v3 cover)
            (backtrack edges deg (j + 1) (insert v2 cover)
              (backtrack edges deg (j + 1) (insert v1 cover) best)))
      | _ => best
termination_by edges.length - i
decreasing_by
  all_goals
    rcases findUncovered_some edges cover hfu with ⟨h1, h2, _⟩
    omega

/-- Embeds `compute_f_sf(n)`: build the hypergraph, and unless the edge
list is empty run the branch-and-bound from the trivial cover `set(V)`;
returns `(f_sf, edges, min_cover)` with `f_sf = len(V) - len(min_cover)`
computed in `Int` exactly as Python's unbounded subtraction. -/
def compute_f_sf (n : Nat) : Int × List Edge × Finset Nat :=
  let V := sieve_square_free n
  let edges := buildEdges V
  if edges.isEmpty then ((V.length : Int), edges, ∅)
  else
    let deg := fun v => ((edges.map edgeVerts).flatten.count v)
    let best := backtrack edges deg 0 ∅ V.toFinset
    ((V.length : Int) - (best.card : Int), edges, best)

theorem core_self {a : Nat} (ha : 0 < a) : core a a = 1 := by
  unfold core
  rw [Nat.gcd_self]
  exact Nat.div_self (Nat.mul_pos ha ha)

/-- C5 (corrected): for every square-free positive `a`, `core(a, a)`
equals `1` (not `a`): `gcd(a,a) = a`, so `core(a,a) = a²/a² = 1`. -/
theorem C5_core_self_eq_one (a : Nat) (hsf : Squarefree a) (ha : 0 < a) :
    core a a = 1 :=
  core_self ha

theorem C5_core_self_eq_one_witness :
    Squarefree 2 ∧ 0 < 2 ∧ core 2 2 = 1 :=
  ⟨Nat.prime_two.squarefree, by decide,
    C5_core_self_eq_one 2 Nat.prime_two.squarefree (by decide)⟩

/-- C5 counterexample: `2` is square-free and positive, yet
`core(2, 2) = 1 ≠ 2`, refuting `core(a, a) = a`. -/
theorem C5_counterexample : Squarefree 2 ∧ 0 < 2 ∧ core 2 2 ≠ 2 :=
  ⟨Nat.prime_two.squarefree, by decide, by decide⟩

/-- C3 (corrected): `checkAdmissible {3,5,126,210}` returns `true`, not
`false` — its product is the perfect square `630²` and the cross-equality
`3·210 = 5·126` holds — while `checkAdmissible {3,5,14,210}` returns
`false`: its product is the perfect square `210²` and `3·210 ≠ 5·14`. -/
theorem C3_admissible_pair :
    check_admissible ({3, 5, 126, 210} : Finset Nat) = true ∧
    check_admissible ({3, 5, 14, 210} : Finset Nat) = false ∧
    IsSquare (3 * 5 * 126 * 210 : Nat) ∧ IsSquare (3 * 5 * 14 * 210 : Nat) ∧
    (3 * 210 : Nat) = 5 * 126 ∧ (3 * 210 : Nat) ≠ 5 * 14 :=
  ⟨by decide, by decide, ⟨630, by norm_num⟩, ⟨210, by norm_num⟩,
    by norm_num, by norm_num⟩

/-- C3 counterexample: the first half of the claim is false on the code:
`checkAdmissible {3,5,126,210}` evaluates to `true` (the cross-product
equality `3·210 = 5·126 = 630` holds, so the quadruple is admissible). -/
theorem C3_counterexample :
    check_admissible ({3, 5, 126, 210} : Finset Nat) = true := by
  decide

/-- C4: `checkFixingOpportunity(210, {3,5,14,210})` reports a fix and
returns a set (namely `[3, 5, 126, 210]`) that `checkAdmissible`
accepts. -/
theorem C4_fixing_roundtrip :
    (check_fixing_opportunity 210 ({3, 5, 14, 210} : Finset Nat)).1 = true ∧
    ∃ A : List Nat,
      (check_fixing_opportunity 210 ({3, 5, 14, 210} : Finset Nat)).2 = some A ∧
      check_admissible A.toFinset = true :=
  ⟨by decide, [3, 5, 126, 210], by decide, by decide⟩

/-- C6 counterexample: at `n = 15` the edge list of `computeFSf` contains
the tuple `(1, 6, 10, 15)` three times (once for each of its three
pair-of-pairs decompositions, whose cores are `6`, `10` and `15`), so it
is not duplicate-free. -/
theorem C6_counterexample : ¬ ((compute_f_sf 15).2.1.Nodup) := by
  decide

/-- C6 (corrected): hyperedges are not deduplicated as value-sets: the
same sorted 4-tuple occurs once per pair-of-pairs decomposition with
matching cores; at `n = 15` the edge list is exactly three copies of
`(1, 6, 10, 15)`. -/
theorem C6_edges_not_dedup :
    (compute_f_sf 15).2.1.count (1, 6, 10, 15) = 3 ∧
    (compute_f_sf 15).2.1 = [(1, 6, 10, 15), (1, 6, 10, 15), (1, 6, 10, 15)] := by
  refine ⟨by decide, by decide⟩

theorem sieve_keep_iff {n x : Nat} (hx : 0 < x) :
    sieve_keep n x = true ↔ ∀ i, 2 ≤ i → i * i ≤ n → ¬ (i * i ∣ x) := by
  unfold sieve_keep
  rw [List.all_eq_true]
  constructor
  · intro h i h2i hin hdvd
    have hsq : i ≤ Nat.sqrt n := Nat.le_sqrt.2 hin
    have h4 : 2 * 2 ≤ i * i := Nat.mul_le_mul h2i h2i
    have hsq2 : 2 ≤ Nat.sqrt n := Nat.le_sqrt.2 (by omega)
    have hmem : i ∈ List.range' 2 (isqrt n - 1) := by
      rw [List.mem_range'_1, isqrt_eq_sqrt]
      omega
    have := h i hmem
    rw [bne_iff_ne] at this
    exact this (Nat.dvd_iff_mod_eq_zero.1 hdvd)
  · intro h i hmem
    rw [List.mem_range'_1, isqrt_eq_sqrt] at hmem
    have h2i : 2 ≤ i := hmem.1
    have hin : i * i ≤ n := Nat.le_sqrt.1 (by omega)
    rw [bne_iff_ne]
    intro hmod
    exact h i h2i hin (Nat.dvd_iff_mod_eq_zero.2 hmod)

/-- Characterization of the sieve: for every `n`, the survivors are
exactly the square-free integers of `[1, n]`. -/
theorem mem_sieve {n x : Nat} :
    x ∈ sieve_square_free n ↔ 1 ≤ x ∧ x ≤ n ∧ Squarefree x := by
  unfold sieve_square_free
  rw [List.mem_filter, List.mem_range'_1]
  constructor
  · rintro ⟨⟨h1, h2⟩, hkeep⟩
    refine ⟨h1, by omega, ?_⟩
    rw [Nat.squarefree_iff_prime_squarefree]
    intro p hp hdvd
    have hple : p * p ≤ x := Nat.le_of_dvd h1 hdvd
    exact (sieve_keep_iff h1).1 hkeep p hp.two_le (by omega) hdvd
  · rintro ⟨h1, h2, hsf⟩
    refine ⟨⟨h1, by omega⟩, (sieve_keep_iff h1).2 ?_⟩
    intro i h2i hin hdvd
    rcases Nat.exists_prime_and_dvd (show i ≠ 1 by omega) with ⟨p, hp, hpi⟩
    exact Nat.squarefree_iff_prime_squarefree.1 hsf p hp
      ((mul_dvd_mul hpi hpi).trans hdvd)

theorem sieve_sorted (n : Nat) : List.Sorted (· < ·) (sieve_square_free n) :=
  List.Pairwise.sublist (List.filter_sublist _) (List.pairwise_lt_range' 1 n)

theorem sieve_nodup (n : Nat) : (sieve_square_free n).Nodup :=
  (sieve_sorted n).imp (fun h => Nat.ne_of_lt h)

/-- C8: for `n ≥ 1`, the sieve output is strictly increasing, consists of
integers of `[1, n]`, contains `1`, and none of its values is divisible
by any perfect square greater than `1`. -/
theorem C8_sieve_square_free (n : Nat) (hn : 0 < n) :
    List.Sorted (· < ·) (sieve_square_free n) ∧
    (∀ x ∈ sieve_square_free n, 1 ≤ x ∧ x ≤ n) ∧
    1 ∈ sieve_square_free n ∧
    ∀ x ∈ sieve_square_free n, ∀ s : Nat, 1 < s → IsSquare s → ¬ s ∣ x := by
  refine ⟨sieve_sorted n, ?_, ?_, ?_⟩
  · intro x hx
    rcases mem_sieve.1 hx with ⟨h1, h2, _⟩
    exact ⟨h1, h2⟩
  · exact mem_sieve.2 ⟨le_rfl, hn, squarefree_one⟩
  · intro x hx s hs hsq hdvd
    rcases mem_sieve.1 hx with ⟨h1, h2, hsf⟩
    rcases hsq with ⟨r, rfl⟩
    rcases Nat.exists_prime_and_dvd (show r ≠ 1 by
      intro h
      rw [h] at hs
      omega) with ⟨p, hp, hpr⟩
    exact Nat.squarefree_iff_prime_squarefree.1 hsf p hp
      ((mul_dvd_mul hpr hpr).trans hdvd)

theorem C8_sieve_square_free_witness :
    0 < 12 ∧
    (List.Sorted (· < ·) (sieve_square_free 12) ∧
    (∀ x ∈ sieve_square_free 12, 1 ≤ x ∧ x ≤ 12) ∧
    1 ∈ sieve_square_free 12 ∧
    ∀ x ∈ sieve_square_free 12, ∀ s : Nat, 1 < s → IsSquare s → ¬ s ∣ x) :=
  ⟨by decide, C8_sieve_square_free 12 (by decide)⟩

theorem scale_loop_of_gt {n k : Nat} (h : n < k) : scale_loop n k 1 = 0 := by
  rw [scale_loop, show n + 2 = (n + 1) + 1 from rfl, scale_loopF, if_neg]
  rintro ⟨hk, hle⟩
  omega

theorem scale_tuples_of_mem_nil :
    ∀ rs : List (List Nat), [] ∈ rs → scale_tuples rs = [] := by
  intro rs
  induction rs with
  | nil =>
    intro h
    cases h
  | cons r rs ih =>
    intro h
    rw [scale_tuples]
    rcases List.mem_cons.1 h with rfl | h
    · simp
    · rw [ih h]
      simp

/-- C10: if some kernel value exceeds the bound `n`, its scale range is
empty, so the whole scale cross product is empty and the search reports
`(false, none)` without producing any candidate. -/
theorem C10_fixing_overlarge_kernel (n : Nat) (K : Finset Nat) (hn : 0 < n)
    (hne : K.Nonempty) (hpos : ∀ k ∈ K, 0 < k) (hbig : ∃ k ∈ K, n < k) :
    check_fixing_opportunity n K = (false, none) := by
  rcases hbig with ⟨k, hkK, hk⟩
  rw [check_fixing_opportunity]
  have hkmem : k ∈ finsort K := mem_finsort.2 hkK
  have h0 : (0 : Nat) ∈ (finsort K).map (fun k => scale_loop n k 1) :=
    List.mem_map.2 ⟨k, hkmem, scale_loop_of_gt hk⟩
  have hnil : ([] : List Nat) ∈
      ((finsort K).map (fun k => scale_loop n k 1)).map
        (fun ms => List.range' 1 ms) :=
    List.mem_map.2 ⟨0, h0, rfl⟩
  rw [scale_tuples_of_mem_nil _ hnil]
  rfl

theorem C10_fixing_overlarge_kernel_witness :
    (0 < 5 ∧ ({7} : Finset Nat).Nonempty ∧ (∀ k ∈ ({7} : Finset Nat), 0 < k) ∧
      (∃ k ∈ ({7} : Finset Nat), 5 < k)) ∧
    check_fixing_opportunity 5 ({7} : Finset Nat) = (false, none) :=
  ⟨⟨by decide, ⟨7, by decide⟩, by decide, ⟨7, by decide, by decide⟩⟩,
    C10_fixing_overlarge_kernel 5 {7} (by decide) ⟨7, by decide⟩ (by decide)
      ⟨7, by decide, by decide⟩⟩

theorem allPairs_mem :
    ∀ {V : List Nat} {p : Nat × Nat}, p ∈ allPairs V → p.1 ∈ V ∧ p.2 ∈ V := by
  intro V
  induction V with
  | nil =>
    intro p hp
    cases hp
  | cons x xs ih =>
    intro p hp
    rcases List.mem_append.1 hp with hp | hp
    · rcases List.mem_map.1 hp with ⟨y, hy, rfl⟩
      exact ⟨List.mem_cons_self _ _, List.mem_cons_of_mem _ hy⟩
    · rcases ih hp with ⟨h1, h2⟩
      exact ⟨List.mem_cons_of_mem _ h1, List.mem_cons_of_mem _ h2⟩

theorem pairPairs_mem :
    ∀ {l : List (Nat × Nat)} {pq : (Nat × Nat) × (Nat × Nat)},
      pq ∈ pairPairs l → pq.1 ∈ l ∧ pq.2 ∈ l := by
  intro l
  induction l with
  | nil =>
    intro pq hpq
    cases hpq
  | cons p ps ih =>
    intro pq hpq
    rcases List.mem_append.1 hpq with hpq | hpq
    · rcases List.mem_map.1 hpq with ⟨q, hq, rfl⟩
      exact ⟨List.mem_cons_self _ _, List.mem_cons_of_mem _ hq⟩
    · rcases ih hpq with ⟨h1, h2⟩
      exact ⟨List.mem_cons_of_mem _ h1, List.mem_cons_of_mem _ h2⟩

/-- Bucket invariant of the association list: every stored pair belongs
to the key it is filed under, and satisfies the ambient predicate. -/
theorem insertGroup_mem (Q : Nat × Nat → Prop) {k : Nat} {p : Nat × Nat} :
    ∀ {acc : List (Nat × List (Nat × Nat))},
      (∀ kb ∈ acc, ∀ q ∈ kb.2, Q q ∧ core q.1 q.2 = kb.1) →
      Q p → core p.1 p.2 = k →
      ∀ kb ∈ insertGroup k p acc, ∀ q ∈ kb.2, Q q ∧ core q.1 q.2 = kb.1 := by
  intro acc
  induction acc with
  | nil =>
    intro _ hQ hk kb hkb q hq
    rw [insertGroup] at hkb
    rcases List.mem_cons.1 hkb with rfl | hkb
    · rcases List.mem_cons.1 hq with rfl | hq
      · exact ⟨hQ, hk⟩
      · cases hq
    · cases hkb
  | cons kb0 rest ih =>
    intro hacc hQ hk kb hkb q hq
    rcases kb0 with ⟨k', l⟩
    rw [insertGroup] at hkb
    by_cases hkk : k' = k
    · rw [if_pos hkk] at hkb
      rcases List.mem_cons.1 hkb with rfl | hkb
      · rcases List.mem_append.1 hq with hq | hq
        · exact hacc (k', l) (List.mem_cons_self _ _) q hq
        · rcases List.mem_cons.1 hq with rfl | hq
          · exact ⟨hQ, by rw [hk, hkk]⟩
          · cases hq
      · exact hacc kb (List.mem_cons_of_mem _ hkb) q hq
    · rw [if_neg hkk] at hkb
      rcases List.mem_cons.1 hkb with rfl | hkb
      · exact hacc _ (List.mem_cons_self _ _) q hq
      · exact ih (fun kb' hkb' => hacc kb' (List.mem_cons_of_mem _ hkb')) hQ hk
          kb hkb q hq

theorem groupPairs_mem (Q : Nat × Nat → Prop) :
    ∀ (ps : List (Nat × Nat)) (acc : List (Nat × List (Nat × Nat))),
      (∀ p ∈ ps, Q p) →
      (∀ kb ∈ acc, ∀ q ∈ kb.2, Q q ∧ core q.1 q.2 = kb.1) →
      ∀ kb ∈ ps.foldl (fun acc p => insertGroup (core p.1 p.2) p acc) acc,
        ∀ q ∈ kb.2, Q q ∧ core q.1 q.2 = kb.1 := by
  intro ps
  induction ps with
  | nil =>
    intro acc _ hacc kb hkb q hq
    exact hacc kb hkb q hq
  | cons p ps ih =>
    intro acc hps hacc kb hkb q hq
    exact ih (insertGroup (core p.1 p.2) p acc)
      (fun r hr => hps r (List.mem_cons_of_mem _ hr))
      (insertGroup_mem Q hacc (hps p (List.mem_cons_self _ _)) rfl)
      kb hkb q hq

theorem edgeOfPairPair_some {pq : (Nat × Nat) × (Nat × Nat)} {e : Edge}
    (h : edgeOfPairPair pq = some e) :
    sortNat [pq.1.1, pq.1.2, pq.2.1, pq.2.2] = edgeVerts e ∧
    ([pq.1.1, pq.1.2, pq.2.1, pq.2.2] : List Nat).Nodup ∧
    e.1 * e.2.2.2 ≠ e.2.1 * e.2.2.1 := by
  rw [edgeOfPairPair] at h
  split at h
  · rename_i hnd
    split at h
    · rename_i a b c d heq
      split at h
      · rename_i hne
        have he : e = (a, b, c, d) := (Option.some.inj h).symm
        subst he
        exact ⟨heq, hnd, hne⟩
      · cases h
    · cases h
  · cases h

theorem buildEdges_mem {V : List Nat} {e : Edge} (he : e ∈ buildEdges V) :
    ∃ p1 p2 : Nat × Nat, p1 ∈ allPairs V ∧ p2 ∈ allPairs V ∧
      core p1.1 p1.2 = core p2.1 p2.2 ∧
      sortNat [p1.1, p1.2, p2.1, p2.2] = edgeVerts e ∧
      ([p1.1, p1.2, p2.1, p2.2] : List Nat).Nodup ∧
      e.1 * e.2.2.2 ≠ e.2.1 * e.2.2.1 := by
  rw [buildEdges] at he
  rcases List.mem_flatMap.1 he with ⟨kb, hkb, hbe⟩
  rcases List.mem_filterMap.1 hbe with ⟨pq, hpq, hsome⟩
  have hbucket : ∀ q ∈ kb.2, q ∈ allPairs V ∧ core q.1 q.2 = kb.1 :=
    groupPairs_mem (fun p => p ∈ allPairs V) (allPairs V) []
      (fun p hp => hp) (fun kb' hkb' => absurd hkb' (List.not_mem_nil _)) kb hkb
  rcases pairPairs_mem hpq with ⟨h1, h2⟩
  rcases hbucket pq.1 h1 with ⟨hm1, hc1⟩
  rcases hbucket pq.2 h2 with ⟨hm2, hc2⟩
  rcases edgeOfPairPair_some hsome with ⟨hsort, hnd, hne⟩
  exact ⟨pq.1, pq.2, hm1, hm2, by rw [hc1, hc2], hsort, hnd, hne⟩

theorem core_mul_gcd_sq (x y : Nat) :
    core x y * (Nat.gcd x y * Nat.gcd x y) = x * y := by
  unfold core
  exact Nat.div_mul_cancel
    (mul_dvd_mul (Nat.gcd_dvd_left x y) (Nat.gcd_dvd_right x y))

theorem four_sorted_nodup {a b c d : Nat}
    (hs : List.Sorted (· ≤ ·) [a, b, c, d])
    (hnd : ([a, b, c, d] : List Nat).Nodup) :
    a < b ∧ b < c ∧ c < d := by
  have h1 : a ≤ b := List.rel_of_sorted_cons hs b (by simp)
  have h2 : b ≤ c := List.rel_of_sorted_cons hs.of_cons c (by simp)
  have h3 : c ≤ d := List.rel_of_sorted_cons hs.of_cons.of_cons d (by simp)
  have hne1 : a ≠ b := by
    intro h
    exact (List.nodup_cons.1 hnd).1 (by simp [h])
  have hne2 : b ≠ c := by
    intro h
    exact (List.nodup_cons.1 (List.nodup_cons.1 hnd).2).1 (by simp [h])
  have hne3 : c ≠ d := by
    intro h
    exact (List.nodup_cons.1 (List.nodup_cons.1 (List.nodup_cons.1 hnd).2).2).1
      (by simp [h])
  exact ⟨lt_of_le_of_ne h1 hne1, lt_of_le_of_ne h2 hne2, lt_of_le_of_ne h3 hne3⟩

theorem compute_f_sf_edges (n : Nat) :
    (compute_f_sf n).2.1 = buildEdges (sieve_square_free n) := by
  rw [compute_f_sf]
  split <;> rfl

/-- C7: every edge of `computeFSf(n)` is a strictly ascending 4-tuple of
distinct square-free integers of `[1, n]` with a perfect-square product
and failing cross-equality. -/
theorem C7_edges_wellformed (n : Nat) (hn : 0 < n) :
    ∀ e ∈ (compute_f_sf n).2.1,
      (e.1 < e.2.1 ∧ e.2.1 < e.2.2.1 ∧ e.2.2.1 < e.2.2.2) ∧
      (∀ v ∈ edgeVerts e, 1 ≤ v ∧ v ≤ n ∧ Squarefree v) ∧
      IsSquare (e.1 * e.2.1 * e.2.2.1 * e.2.2.2) ∧
      e.1 * e.2.2.2 ≠ e.2.1 * e.2.2.1 := by
  intro e he
  rw [compute_f_sf_edges] at he
  rcases buildEdges_mem he with ⟨p1, p2, hm1, hm2, hcore, hsort, hnd, hne⟩
  have hperm : List.Perm (edgeVerts e) [p1.1, p1.2, p2.1, p2.2] := by
    rw [← hsort]
    exact sortNat_perm _
  have hvmem : ∀ v ∈ edgeVerts e, v ∈ sieve_square_free n := by
    intro v hv
    have hv4 := hperm.mem_iff.1 hv
    rcases allPairs_mem hm1 with ⟨ha1, ha2⟩
    rcases allPairs_mem hm2 with ⟨hb1, hb2⟩
    simp only [List.mem_cons, List.not_mem_nil, or_false] at hv4
    rcases hv4 with rfl | rfl | rfl | rfl
    · exact ha1
    · exact ha2
    · exact hb1
    · exact hb2
  have hasc : e.1 < e.2.1 ∧ e.2.1 < e.2.2.1 ∧ e.2.2.1 < e.2.2.2 := by
    have hsorted : List.Sorted (· ≤ ·) (edgeVerts e) := by
      rw [← hsort]
      exact sortNat_sorted _
    have hndv : (edgeVerts e).Nodup := hperm.nodup_iff.2 hnd
    rcases e with ⟨a, b, c, d⟩
    exact four_sorted_nodup hsorted hndv
  refine ⟨hasc, ?_, ?_, hne⟩
  · intro v hv
    exact mem_sieve.1 (hvmem v hv)
  · have hprod : e.1 * e.2.1 * e.2.2.1 * e.2.2.2 =
        (p1.1 * p1.2) * (p2.1 * p2.2) := by
      have h1 : (edgeVerts e).prod = ([p1.1, p1.2, p2.1, p2.2] : List Nat).prod :=
        hperm.prod_eq
      rcases e with ⟨a, b, c, d⟩
      simp only [edgeVerts, List.prod_cons, List.prod_nil] at h1
      calc a * b * c * d = a * (b * (c * (d * 1))) := by ring
        _ = p1.1 * (p1.2 * (p2.1 * (p2.2 * 1))) := h1
        _ = (p1.1 * p1.2) * (p2.1 * p2.2) := by ring
    rw [hprod, ← core_mul_gcd_sq p1.1 p1.2, ← core_mul_gcd_sq p2.1 p2.2, ← hcore]
    exact ⟨core p1.1 p1.2 * Nat.gcd p1.1 p1.2 * Nat.gcd p2.1 p2.2, by ring⟩

theorem C7_edges_wellformed_witness :
    0 < 15 ∧ (1, 6, 10, 15) ∈ (compute_f_sf 15).2.1 ∧
    ((1 < 6 ∧ 6 < 10 ∧ 10 < 15) ∧
      (∀ v ∈ edgeVerts (1, 6, 10, 15), 1 ≤ v ∧ v ≤ 15 ∧ Squarefree v) ∧
      IsSquare (1 * 6 * 10 * 15 : Nat) ∧ (1 * 15 : Nat) ≠ 6 * 10) :=
  ⟨by decide, by decide, C7_edges_wellformed 15 (by decide) (1, 6, 10, 15) (by decide)⟩

theorem edgeCoveredB_iff {c : Finset Nat} {e : Edge} :
    edgeCoveredB c e = true ↔ ∃ v ∈ edgeVerts e, v ∈ c := by
  rw [edgeCoveredB, List.any_eq_true]
  constructor
  · rintro ⟨v, hv, hdec⟩
    exact ⟨v, hv, of_decide_eq_true hdec⟩
  · rintro ⟨v, hv, hin⟩
    exact ⟨v, hv, decide_eq_true hin⟩

theorem edgeCoveredB_mono {c c' : Finset Nat} {e : Edge} (h : c ⊆ c')
    (hc : edgeCoveredB c e = true) : edgeCoveredB c' e = true := by
  rcases edgeCoveredB_iff.1 hc with ⟨v, hv, hin⟩
  exact edgeCoveredB_iff.2 ⟨v, hv, h hin⟩

theorem edgeCoveredB_insert {c : Finset Nat} {e : Edge} {v : Nat}
    (hv : v ∈ edgeVerts e) : edgeCoveredB (insert v c) e = true :=
  edgeCoveredB_iff.2 ⟨v, hv, Finset.mem_insert_self v c⟩

/-- The best-cover invariant: `c` hits every edge of the list. -/
def CoversAll (edges : List Edge) (c : Finset Nat) : Prop :=
  ∀ e ∈ edges, edgeCoveredB c e = true

/-- The scan invariant of `backtrack`: all edges below index `i` are
already hit by the partial cover `c`. -/
def CoveredBelow (edges : List Edge) (c : Finset Nat) (i : Nat) : Prop :=
  ∀ m, m < i → ∀ h : m < edges.length, edgeCoveredB c (edges.get ⟨m, h⟩) = true

theorem coveredBelow_mono {edges : List Edge} {c c' : Finset Nat} {i : Nat}
    (h : c ⊆ c') (hc : CoveredBelow edges c i) : CoveredBelow edges c' i :=
  fun m hm hlt => edgeCoveredB_mono h (hc m hm hlt)

theorem list_len4 : ∀ {l : List Nat}, l.length = 4 → ∃ a b c d, l = [a, b, c, d] := by
  intro l h
  match l with
  | [a, b, c, d] => exact ⟨a, b, c, d, rfl⟩
  | [] => simp at h
  | [_] => simp at h
  | [_, _] => simp at h
  | [_, _, _] => simp at h
  | _ :: _ :: _ :: _ :: _ :: _ => simp at h

theorem mem_sortDesc {deg : Nat → Nat} {l : List Nat} {v : Nat} :
    v ∈ sortDesc deg l ↔ v ∈ l := mem_sortBy

theorem length_sortDesc (deg : Nat → Nat) (l : List Nat) :
    (sortDesc deg l).length = l.length := length_sortBy _ l

theorem edgeVerts_length (e : Edge) : (edgeVerts e).length = 4 := rfl

/-- The branch-and-bound result never exceeds the incoming best bound. -/
theorem backtrack_card_le (edges : List Edge) (deg : Nat → Nat) :
    ∀ k i cover best, edges.length - i < k →
      (backtrack edges deg i cover best).card ≤ best.card := by
  intro k
  induction k with
  | zero =>
    intro i cover best hk
    exact absurd hk (Nat.not_lt_zero _)
  | succ k ih =>
    intro i cover best hk
    rw [backtrack]
    split
    · exact le_rfl
    · rename_i hprune
      split
      · rename_i hfu
        have hlt : cover.card < best.card := Nat.lt_of_not_le hprune
        exact Nat.le_of_lt hlt
      · rename_i j e hfu
        split
        · rename_i v1 v2 v3 v4 hvs
          rcases findUncovered_some edges cover hfu with ⟨h1, h2, _⟩
          have hm : edges.length - (j + 1) < k := by omega
          exact le_trans (ih _ _ _ hm) (le_trans (ih _ _ _ hm)
            (le_trans (ih _ _ _ hm) (ih _ _ _ hm)))
        · exact le_rfl

/-- Soundness of the branch-and-bound: starting from a best value that is
a cover drawn from `U` and a partial cover that hits everything below the
scan index, the result is a cover drawn from `U`. -/
theorem backtrack_sound (edges : List Edge) (deg : Nat → Nat) (U : Finset Nat)
    (hU : ∀ e ∈ edges, ∀ v ∈ edgeVerts e, v ∈ U) :
    ∀ k i cover best, edges.length - i < k →
      CoversAll edges best → CoveredBelow edges cover i →
      best ⊆ U → cover ⊆ U →
      CoversAll edges (backtrack edges deg i cover best) ∧
      backtrack edges deg i cover best ⊆ U := by
  intro k
  induction k with
  | zero =>
    intro i cover best hk
    exact absurd hk (Nat.not_lt_zero _)
  | succ k ih =>
    intro i cover best hk hbest hbelow hbU hcU
    rw [backtrack]
    split
    · exact ⟨hbest, hbU⟩
    · rename_i hprune
      split
      · rename_i hfu
        refine ⟨?_, hcU⟩
        intro e he
        rcases List.mem_iff_get.1 he with ⟨⟨m, hm⟩, rfl⟩
        rcases Nat.lt_or_ge m i with hmi | hmi
        · exact hbelow m hmi hm
        · exact findUncovered_none edges cover hfu m hmi hm
      · rename_i j e hfu
        split
        · rename_i v1 v2 v3 v4 hvs
          rcases findUncovered_some edges cover hfu with
            ⟨h1, h2, hmem, hunc, hget, hbelow2⟩
          have hm : edges.length - (j + 1) < k := by omega
          have hvmem : ∀ v ∈ [v1, v2, v3, v4], v ∈ edgeVerts e := by
            intro v hv
            have : v ∈ sortDesc deg (edgeVerts e) := by
              rw [hvs]
              exact hv
            exact mem_sortDesc.1 this
          have hvU : ∀ v ∈ [v1, v2, v3, v4], v ∈ U :=
            fun v hv => hU e hmem v (hvmem v hv)
          have hbelow' : ∀ v ∈ [v1, v2, v3, v4],
              CoveredBelow edges (insert v cover) (j + 1) := by
            intro v hv m hmj hmlen
            rcases Nat.lt_or_ge m i with hmi | hmi
            · exact edgeCoveredB_mono (Finset.subset_insert _ _) (hbelow m hmi hmlen)
            · rcases Nat.lt_or_ge m j with hmj' | hmj'
              · exact edgeCoveredB_mono (Finset.subset_insert _ _)
                  (hbelow2 m hmi hmj' hmlen)
              · have : m = j := by omega
                subst this
                rw [hget hmlen]
                exact edgeCoveredB_insert (hvmem v hv)
          have hins : ∀ v ∈ [v1, v2, v3, v4], insert v cover ⊆ U := by
            intro v hv
            exact Finset.insert_subset (hvU v hv) hcU
          have s1 := ih (j + 1) (insert v1 cover) best hm hbest
            (hbelow' v1 (by simp)) hbU (hins v1 (by simp))
          have s2 := ih (j + 1) (insert v2 cover) _ hm s1.1
            (hbelow' v2 (by simp)) s1.2 (hins v2 (by simp))
          have s3 := ih (j + 1) (insert v3 cover) _ hm s2.1
            (hbelow' v3 (by simp)) s2.2 (hins v3 (by simp))
          have s4 := ih (j + 1) (insert v4 cover) _ hm s3.1
            (hbelow' v4 (by simp)) s3.2 (hins v4 (by simp))
          exact s4
        · exact ⟨hbest, hbU⟩

/-- Optimality of the branch-and-bound: the returned cover is no larger
than any cover `C` extending the current partial cover. -/
theorem backtrack_optimal (edges : List Edge) (deg : Nat → Nat)
    (C : Finset Nat) (hC : CoversAll edges C) :
    ∀ k i cover best, edges.length - i < k → cover ⊆ C →
      (backtrack edges deg i cover best).card ≤ C.card := by
  intro k
  induction k with
  | zero =>
    intro i cover best hk
    exact absurd hk (Nat.not_lt_zero _)
  | succ k ih =>
    intro i cover best hk hcC
    rw [backtrack]
    split
    · rename_i hprune
      exact le_trans hprune (Finset.card_le_card hcC)
    · rename_i hprune
      split
      · rename_i hfu
        exact Finset.card_le_card hcC
      · rename_i j e hfu
        split
        · rename_i v1 v2 v3 v4 hvs
          rcases findUncovered_some edges cover hfu with
            ⟨h1, h2, hmem, hunc, hget, hbelow2⟩
          have hm : edges.length - (j + 1) < k := by omega
          rcases edgeCoveredB_iff.1 (hC e hmem) with ⟨v, hv, hvC⟩
          have hv4 : v ∈ [v1, v2, v3, v4] := by
            rw [← hvs]
            exact mem_sortDesc.2 hv
          have hcard := backtrack_card_le edges deg (k + 1)
          simp only [List.mem_cons, List.not_mem_nil, or_false] at hv4
          rcases hv4 with rfl | rfl | rfl | rfl
          · have hb1 := ih (j + 1) (insert v cover) best hm
              (Finset.insert_subset hvC hcC)
            exact le_trans (backtrack_card_le edges deg (k + 1) _ _ _ (by omega))
              (le_trans (backtrack_card_le edges deg (k + 1) _ _ _ (by omega))
                (le_trans (backtrack_card_le edges deg (k + 1) _ _ _ (by omega)) hb1))
          · have hb2 := ih (j + 1) (insert v cover)
              (backtrack edges deg (j + 1) (insert v1 cover) best) hm
              (Finset.insert_subset hvC hcC)
            exact le_trans (backtrack_card_le edges deg (k + 1) _ _ _ (by omega))
              (le_trans (backtrack_card_le edges deg (k + 1) _ _ _ (by omega)) hb2)
          · have hb3 := ih (j + 1) (insert v cover)
              (backtrack edges deg (j + 1) (insert v2 cover)
                (backtrack edges deg (j + 1) (insert v1 cover) best)) hm
              (Finset.insert_subset hvC hcC)
            exact le_trans (backtrack_card_le edges deg (k + 1) _ _ _ (by omega)) hb3
          · exact ih (j + 1) (insert v cover)
              (backtrack edges deg (j + 1) (insert v3 cover)
                (backtrack edges deg (j + 1) (insert v2 cover)
                  (backtrack edges deg (j + 1) (insert v1 cover) best))) hm
              (Finset.insert_subset hvC hcC)
        · rename_i hbad
          exfalso
          have hlen : (sortDesc deg (edgeVerts e)).length = 4 := by
            rw [length_sortDesc]
            exact edgeVerts_length e
          rcases list_len4 hlen with ⟨a, b, c, d, habcd⟩
          exact hbad a b c d habcd

theorem buildEdges_verts {V : List Nat} {e : Edge} (he : e ∈ buildEdges V) :
    ∀ v ∈ edgeVerts e, v ∈ V := by
  rcases buildEdges_mem he with ⟨p1, p2, hm1, hm2, hcore, hsort, hnd, hne⟩
  intro v hv
  rw [← hsort] at hv
  have hv4 : v ∈ [p1.1, p1.2, p2.1, p2.2] := mem_sortBy.1 hv
  rcases allPairs_mem hm1 with ⟨ha1, ha2⟩
  rcases allPairs_mem hm2 with ⟨hb1, hb2⟩
  simp only [List.mem_cons, List.not_mem_nil, or_false] at hv4
  rcases hv4 with rfl | rfl | rfl | rfl
  · exact ha1
  · exact ha2
  · exact hb1
  · exact hb2

/-- Combined facts about one run of the solver from the trivial upper
bound `set(V)`: the result is a cover, it is drawn from `V`, it is no
larger than `|V|`, and no cover at all is smaller. -/
theorem solver_run (V : List Nat) (deg : Nat → Nat) (hnd : V.Nodup) :
    CoversAll (buildEdges V) (backtrack (buildEdges V) deg 0 ∅ V.toFinset) ∧
    backtrack (buildEdges V) deg 0 ∅ V.toFinset ⊆ V.toFinset ∧
    (backtrack (buildEdges V) deg 0 ∅ V.toFinset).card ≤ V.length ∧
    (∀ C : Finset Nat, CoversAll (buildEdges V) C →
      (backtrack (buildEdges V) deg 0 ∅ V.toFinset).card ≤ C.card) := by
  have hU : ∀ e ∈ buildEdges V, ∀ v ∈ edgeVerts e, v ∈ V.toFinset :=
    fun e he v hv => List.mem_toFinset.2 (buildEdges_verts he v hv)
  have hcovV : CoversAll (buildEdges V) V.toFinset := by
    intro e he
    exact edgeCoveredB_iff.2 ⟨e.1, by simp [edgeVerts],
      List.mem_toFinset.2 (buildEdges_verts he e.1 (by simp [edgeVerts]))⟩
  have hs := backtrack_sound (buildEdges V) deg V.toFinset hU
    ((buildEdges V).length + 1) 0 ∅ V.toFinset (by omega) hcovV
    (fun m hm h => absurd hm (Nat.not_lt_zero m)) (fun x hx => hx)
    (Finset.empty_subset _)
  refine ⟨hs.1, hs.2, ?_, ?_⟩
  · calc (backtrack (buildEdges V) deg 0 ∅ V.toFinset).card
        ≤ V.toFinset.card := Finset.card_le_card hs.2
      _ = V.length := List.toFinset_card_of_nodup hnd
  · intro C hC
    exact backtrack_optimal (buildEdges V) deg C hC
      ((buildEdges V).length + 1) 0 ∅ V.toFinset (by omega)
      (Finset.empty_subset _)

/-- C1: `computeFSf(n)` returns `(fSf, edges, cover)` with
`0 ≤ fSf ≤ |squareFreeSieve(n)|`, and `cover` hits every returned edge. -/
theorem C1_compute_f_sf_sound (n : Nat) (hn : 0 < n) :
    0 ≤ (compute_f_sf n).1 ∧
    (compute_f_sf n).1 ≤ ((sieve_square_free n).length : Int) ∧
    ∀ e ∈ (compute_f_sf n).2.1, ∃ v ∈ edgeVerts e, v ∈ (compute_f_sf n).2.2 := by
  rw [compute_f_sf]
  split
  · rename_i h
    dsimp only
    refine ⟨Int.natCast_nonneg _, le_rfl, ?_⟩
    intro e he
    rw [List.isEmpty_iff] at h
    rw [h] at he
    cases he
  · rename_i h
    dsimp only
    have hg := solver_run (sieve_square_free n)
      (fun v => (((buildEdges (sieve_square_free n)).map edgeVerts).flatten.count v))
      (sieve_nodup n)
    rcases hg with ⟨hcov, hsub, hcard, hopt⟩
    refine ⟨?_, ?_, ?_⟩
    · omega
    · omega
    · intro e he
      exact edgeCoveredB_iff.1 (hcov e he)

theorem C1_compute_f_sf_sound_witness :
    0 < 15 ∧
    (0 ≤ (compute_f_sf 15).1 ∧
    (compute_f_sf 15).1 ≤ ((sieve_square_free 15).length : Int) ∧
    ∀ e ∈ (compute_f_sf 15).2.1, ∃ v ∈ edgeVerts e, v ∈ (compute_f_sf 15).2.2) :=
  ⟨by decide, C1_compute_f_sf_sound 15 (by decide)⟩

/-- C2: the returned cover is a minimum vertex cover of the constructed
hypergraph: it is a subset of `V(n)` hitting every edge, no strictly
smaller subset of `V(n)` hits every edge, and `fSf = |V(n)| − |cover|`. -/
theorem C2_compute_f_sf_minimum (n : Nat) (hn : 0 < n) :
    (compute_f_sf n).2.2 ⊆ (sieve_square_free n).toFinset ∧
    (∀ e ∈ (compute_f_sf n).2.1, ∃ v ∈ edgeVerts e, v ∈ (compute_f_sf n).2.2) ∧
    (∀ C : Finset Nat, C ⊆ (sieve_square_free n).toFinset →
      C.card < (compute_f_sf n).2.2.card →
      ∃ e ∈ (compute_f_sf n).2.1, ∀ v ∈ edgeVerts e, v ∉ C) ∧
    (compute_f_sf n).1 =
      ((sieve_square_free n).length : Int) - ((compute_f_sf n).2.2.card : Int) := by
  rw [compute_f_sf]
  split
  · rename_i h
    dsimp only
    refine ⟨Finset.empty_subset _, ?_, ?_, by simp⟩
    · intro e he
      rw [List.isEmpty_iff] at h
      rw [h] at he
      cases he
    · intro C hCsub hClt
      simp at hClt
  · rename_i h
    dsimp only
    have hg := solver_run (sieve_square_free n)
      (fun v => (((buildEdges (sieve_square_free n)).map edgeVerts).flatten.count v))
      (sieve_nodup n)
    rcases hg with ⟨hcov, hsub, hcard, hopt⟩
    refine ⟨hsub, ?_, ?_, rfl⟩
    · intro e he
      exact edgeCoveredB_iff.1 (hcov e he)
    · intro C hCsub hClt
      by_contra hcon
      push_neg at hcon
      have hCcov : CoversAll (buildEdges (sieve_square_free n)) C := by
        intro e he
        rcases hcon e he with ⟨v, hv, hvC⟩
        exact edgeCoveredB_iff.2 ⟨v, hv, hvC⟩
      have := hopt C hCcov
      omega

theorem C2_compute_f_sf_minimum_witness :
    0 < 15 ∧
    ((compute_f_sf 15).2.2 ⊆ (sieve_square_free 15).toFinset ∧
    (∀ e ∈ (compute_f_sf 15).2.1, ∃ v ∈ edgeVerts e, v ∈ (compute_f_sf 15).2.2) ∧
    (∀ C : Finset Nat, C ⊆ (sieve_square_free 15).toFinset →
      C.card < (compute_f_sf 15).2.2.card →
      ∃ e ∈ (compute_f_sf 15).2.1, ∀ v ∈ edgeVerts e, v ∉ C) ∧
    (compute_f_sf 15).1 =
      ((sieve_square_free 15).length : Int) - ((compute_f_sf 15).2.2.card : Int)) :=
  ⟨by decide, C2_compute_f_sf_minimum 15 (by decide)⟩

/-- The radical of `m`: the product of its distinct prime factors.  The
trial-division loop of `square_free_kernel` computes exactly this. -/
def radical_nat (m : Nat) : Nat := ∏ p ∈ m.primeFactors, p

theorem removeAll_spec : ∀ temp d : Nat, 2 ≤ d → 0 < temp →
    ∃ k : Nat, temp = d ^ k * removeAll temp d ∧
      ¬ d ∣ removeAll temp d ∧ 0 < removeAll temp d := by
  intro temp
  induction temp using Nat.strong_induction_on with
  | _ temp ih =>
    intro d hd ht
    rw [removeAll]
    by_cases hmod : temp % d = 0
    · rw [if_pos ⟨hd, ht, hmod⟩]
      have hdvd : d ∣ temp := Nat.dvd_iff_mod_eq_zero.2 hmod
      have hq : 0 < temp / d := Nat.div_pos (Nat.le_of_dvd ht hdvd) (by omega)
      have hlt : temp / d < temp := Nat.div_lt_self ht (by omega)
      rcases ih (temp / d) hlt d hd hq with ⟨k, heq, hnd, hpos⟩
      refine ⟨k + 1, ?_, hnd, hpos⟩
      calc temp = d * (temp / d) := (Nat.mul_div_cancel' hdvd).symm
        _ = d * (d ^ k * removeAll (temp / d) d) := by rw [← heq]
        _ = d ^ (k + 1) * removeAll (temp / d) d := by ring
    · rw [if_neg (fun hcon => hmod hcon.2.2)]
      exact ⟨0, by simp, fun hc => hmod (Nat.dvd_iff_mod_eq_zero.1 hc), ht⟩

theorem radical_nat_factor {d r : Nat} (k : Nat) (hd : d.Prime) (hk : k ≠ 0)
    (hr : 0 < r) (hnd : ¬ d ∣ r) :
    radical_nat (d ^ k * r) = d * radical_nat r := by
  unfold radical_nat
  have h1 : (d ^ k * r).primeFactors = insert d r.primeFactors := by
    rw [Nat.primeFactors_mul (pow_ne_zero k hd.pos.ne') (by omega),
      Nat.primeFactors_pow d hk, hd.primeFactors, ← Finset.insert_eq]
  rw [h1,
    Finset.prod_insert (fun hmem => hnd (Nat.dvd_of_mem_primeFactors hmem))]

theorem kernelAux_radical :
    ∀ N temp d kernel : Nat, temp + 1 - d < N → 2 ≤ d → 0 < temp →
      (∀ p, p.Prime → p ∣ temp → d ≤ p) →
      kernelAux temp d kernel = kernel * radical_nat temp := by
  intro N
  induction N with
  | zero =>
    intro temp d kernel h
    exact absurd h (Nat.not_lt_zero _)
  | succ N ih =>
    intro temp d kernel hN hd ht hmin
    rw [kernelAux]
    split
    · rename_i hdd
      have hdle : d ≤ temp := le_of_sq_le hdd
      split
      · rename_i hmod
        have hdvd : d ∣ temp := Nat.dvd_iff_mod_eq_zero.2 hmod
        have hdprime : d.Prime := by
          have h1 : d.minFac ∣ temp := (Nat.minFac_dvd d).trans hdvd
          have h2 : d ≤ d.minFac :=
            hmin d.minFac (Nat.minFac_prime (by omega)) h1
          have h3 : d.minFac ≤ d := Nat.minFac_le (by omega)
          have h4 : d.minFac = d := le_antisymm h3 h2
          rw [← h4]
          exact Nat.minFac_prime (by omega)
        rcases removeAll_spec temp d hd ht with ⟨k, heq, hndvd, hpos⟩
        set r := removeAll temp d with hrdef
        have hk0 : k ≠ 0 := by
          intro h0
          rw [h0, pow_zero, one_mul] at heq
          exact hndvd (heq ▸ hdvd)
        have hrlt : r < temp := by
          have h2 : 2 ≤ d ^ k := by
            calc 2 ≤ d := hd
              _ = d ^ 1 := (pow_one d).symm
              _ ≤ d ^ k := Nat.pow_le_pow_right (by omega) (by omega)
          calc r < 2 * r := by omega
            _ ≤ d ^ k * r := Nat.mul_le_mul_right _ h2
            _ = temp := heq.symm
        have hmin' : ∀ p, p.Prime → p ∣ r → d + 1 ≤ p := by
          intro p hp hpr
          have hptemp : p ∣ temp := hpr.trans ⟨d ^ k, by rw [heq]; ring⟩
          have h1 : d ≤ p := hmin p hp hptemp
          rcases Nat.eq_or_lt_of_le h1 with rfl | h2
          · exact absurd hpr hndvd
          · omega
        rw [ih r (d + 1) (kernel * d) (by omega) (by omega) hpos hmin']
        rw [heq, radical_nat_factor k hdprime hk0 hpos hndvd]
        ring
      · rename_i hmod
        have hmin' : ∀ p, p.Prime → p ∣ temp → d + 1 ≤ p := by
          intro p hp hpt
          have h1 := hmin p hp hpt
          rcases Nat.eq_or_lt_of_le h1 with rfl | h2
          · exact absurd (Nat.dvd_iff_mod_eq_zero.1 hpt) hmod
          · omega
        exact ih temp (d + 1) kernel (by omega) (by omega) ht hmin'
    · rename_i hdd
      push_neg at hdd
      split
      · rename_i h1
        have hprime : temp.Prime := by
          by_contra hnp
          have h2 : temp.minFac ^ 2 ≤ temp := Nat.minFac_sq_le_self (by omega) hnp
          have h3 : d ≤ temp.minFac :=
            hmin temp.minFac (Nat.minFac_prime (by omega)) (Nat.minFac_dvd temp)
          have h4 : d * d ≤ temp.minFac * temp.minFac := Nat.mul_le_mul h3 h3
          rw [pow_two] at h2
          omega
        rw [radical_nat, hprime.primeFactors, Finset.prod_singleton]
      · rename_i h1
        have ht1 : temp = 1 := by omega
        subst ht1
        rw [radical_nat, Nat.primeFactors_one]
        simp

theorem square_free_kernel_eq_radical {m : Nat} (hm : 0 < m) :
    square_free_kernel m = radical_nat m := by
  rw [square_free_kernel, if_neg (by omega)]
  rw [kernelAux_radical (m + 2) m 2 1 (by omega) le_rfl hm
    (fun p hp _ => hp.two_le), one_mul]

theorem radical_nat_pos (m : Nat) : 0 < radical_nat m :=
  Finset.prod_pos (fun p hp => (Nat.prime_of_mem_primeFactors hp).pos)

theorem squarefree_prod_primes {s : Finset Nat} (hs : ∀ p ∈ s, p.Prime) :
    Squarefree (∏ p ∈ s, p) := by
  induction s using Finset.cons_induction_on with
  | h₁ => simp [squarefree_one]
  | h₂ hps ih =>
    rename_i p s
    have hp : p.Prime := hs p (Finset.mem_cons_self p s)
    have hs' : ∀ q ∈ s, q.Prime := fun q hq => hs q (Finset.mem_cons.2 (Or.inr hq))
    have hcop : Nat.Coprime p (∏ q ∈ s, q) :=
      Nat.Coprime.prod_right (fun q hq =>
        (Nat.coprime_primes hp (hs' q hq)).2 (fun heqq => hps (heqq ▸ hq)))
    rw [Finset.prod_cons]
    exact (Nat.squarefree_mul hcop).2 ⟨hp.prime.squarefree, ih hs'⟩

theorem radical_nat_squarefree (m : Nat) : Squarefree (radical_nat m) :=
  squarefree_prod_primes (fun p hp => Nat.prime_of_mem_primeFactors hp)

theorem radical_nat_idem (m : Nat) :
    radical_nat (radical_nat m) = radical_nat m := by
  unfold radical_nat
  rw [Nat.primeFactors_prod (fun p hp => Nat.prime_of_mem_primeFactors hp)]

/-- C9: for every `m ≥ 1`, `squareFreeKernel(m)` divides `m`, is itself
square-free, and is a fixed point of `squareFreeKernel`. -/
theorem C9_square_free_kernel (m : Nat) (hm : 0 < m) :
    square_free_kernel m ∣ m ∧ Squarefree (square_free_kernel m) ∧
    square_free_kernel (square_free_kernel m) = square_free_kernel m := by
  rw [square_free_kernel_eq_radical hm]
  refine ⟨?_, radical_nat_squarefree m, ?_⟩
  · rw [radical_nat]
    exact Nat.prod_primeFactors_dvd m
  · rw [square_free_kernel_eq_radical (radical_nat_pos m)]
    exact radical_nat_idem m

theorem C9_square_free_kernel_witness :
    0 < 12 ∧
    (square_free_kernel 12 ∣ 12 ∧ Squarefree (square_free_kernel 12) ∧
    square_free_kernel (square_free_kernel 12) = square_free_kernel 12) :=
  ⟨by decide, C9_square_free_kernel 12 (by decide)⟩

end Erdos888
